import Mathlib

/-!
A Lean model of the `field_interpolation` library: a constraint assembler that
builds a sparse least-squares system over a regular lattice, together with an
exact solver and an approximate multi-resolution lattice solver.

Scalars are modelled by `ℚ` (the C++ code uses `float`; we work with exact
rationals).  The type declarations (`Weights`, `LatticeField`, the two kernel
enumerations and the constructor that derives strides) follow
`field_interpolation/field_interpolation.hpp` directly.  The bodies of the
constraint-adding operations and of the solvers live in implementation files
that are not part of the source tree; those are modelled from the
specification, as indicated on each definition.
-/

namespace FieldInterp

/-- A `(row, col, value)` entry of the sparse matrix, stored before assembly. -/
structure Triplet where
  row : Nat
  col : Nat
  value : ℚ
deriving DecidableEq, Repr

/-- The growing list of triplets plus the parallel right-hand-side vector. -/
structure LinearEquation where
  triplets : List Triplet
  rhs : List ℚ
deriving DecidableEq, Repr

/-- One coefficient of a pending equation: a column index and a value. -/
abbrev Coeff := Nat × ℚ

/-- Modelled from the spec (the equation-accumulator implementation is not in
the source tree): `add_equation(weight, rhs, coeffs)` appends one row,
multiplying every coefficient and the rhs by `weight`; zero weight is a no-op.
The new row index is the current number of rhs entries. -/
def add_equation (eq : LinearEquation) (weight rhsValue : ℚ) (coeffs : List Coeff) :
    LinearEquation :=
  if weight = 0 then eq
  else
    { triplets :=
        coeffs.foldl (fun acc c => acc ++ [⟨eq.rhs.length, c.1, weight * c.2⟩]) eq.triplets
      rhs := eq.rhs ++ [weight * rhsValue] }

/-- When adding a value condition, how shall it be applied?
(From `field_interpolation.hpp`.) -/
inductive ValueKernel where
  | kNearestNeighbor
  | kLinearInterpolation
deriving DecidableEq, Repr

/-- When adding a gradient condition, how shall it be applied?
(From `field_interpolation.hpp`.) -/
inductive GradientKernel where
  | kNearestNeighbor
  | kCellEdges
  | kLinearInterpolation
deriving DecidableEq, Repr

/-- Weight configuration, with the default values of `field_interpolation.hpp`
(`0.5f` becomes `1/2`). -/
structure Weights where
  data_pos : ℚ := 1
  data_gradient : ℚ := 1
  model_0 : ℚ := 0
  model_1 : ℚ := 0
  model_2 : ℚ := 1/2
  model_3 : ℚ := 0
  model_4 : ℚ := 0
  gradient_smoothness : ℚ := 0
  value_kernel : ValueKernel := ValueKernel.kLinearInterpolation
  gradient_kernel : GradientKernel := GradientKernel.kCellEdges
deriving DecidableEq, Repr

/-- The strides derived from the sizes, as computed by the `LatticeField`
constructor in `field_interpolation.hpp`: `strides[d] = Π_{i<d} sizes[i]`. -/
def stridesOf : List Nat → List Nat
  | [] => []
  | s :: rest => 1 :: (stridesOf rest).map (fun x => x * s)

/-- The lattice descriptor plus the accumulated equations
(from `field_interpolation.hpp`). -/
structure LatticeField where
  eq : LinearEquation
  sizes : List Nat
  strides : List Nat
deriving Repr

/-- `LatticeField` constructor: empty equation set, strides derived from the
sizes (from `field_interpolation.hpp`). -/
def LatticeField.init (sizes : List Nat) : LatticeField :=
  { eq := ⟨[], []⟩, sizes := sizes, strides := stridesOf sizes }

/-- Flat index of an integer lattice coordinate: `Σ coords[k] * strides[k]`. -/
def idxZip (strides coords : List Nat) : Nat :=
  (List.zipWith (fun c st => c * st) coords strides).sum

/-- Flat (row-major, first axis fastest) index, recursively. -/
def flatIdx : List Nat → List Nat → Nat
  | _, [] => 0
  | [], _ => 0
  | s :: rest, c :: cs => c + s * flatIdx rest cs

/-- All integer lattice points of the given sizes, enumerated in flat-index
order (the first axis varies fastest, matching `strides[0] = 1`). -/
def latticePoints : List Nat → List (List Nat)
  | [] => [[]]
  | s :: rest =>
      (latticePoints rest).flatMap (fun p => (List.range s).map (fun i => i :: p))

/-- The total number of unknowns `N = Π sizes[d]`. -/
def numUnknowns (sizes : List Nat) : Nat := sizes.prod

/-- Mixed-radix digits of a flat index (inverse of `flatIdx`). -/
def coordsOf : List Nat → Nat → List Nat
  | [], _ => []
  | s :: rest, i => (i % s) :: coordsOf rest (i / s)

/-- In-bounds predicate (spec §4.1): a real-valued position is valid iff
`0 ≤ p[d] ≤ sizes[d] − 1` on every axis; a dimension mismatch is rejected
(spec §7 treats mismatched array lengths as invalid input). -/
def posInBounds (sizes : List Nat) (pos : List ℚ) : Prop :=
  pos.length = sizes.length ∧
    ∀ qs ∈ pos.zip sizes, 0 ≤ qs.1 ∧ qs.1 ≤ (qs.2 : ℚ) - 1

instance (sizes : List Nat) (pos : List ℚ) : Decidable (posInBounds sizes pos) := by
  unfold posInBounds; infer_instance

/-- Floor cell coordinate of one axis (spec §4.1): `fi[d] = floor(p[d])`,
clamped so that the enclosing cell `[fi, fi+1]` stays inside the lattice; a
position at the exact upper boundary (`fi = sizes[d]−1`, fractional part `0`)
resolves through the boundary cell. -/
def floorCell (s : Nat) (q : ℚ) : Nat :=
  min (⌊q⌋).toNat (s - 2)

/-- Modelled from the spec (§4.3, value kernels): the N-linear interpolation
weights at position `p`.  Returns the `2^D` pairs of (flat index, coefficient
`α_c = Π_d (t[d]` or `1−t[d])`).  Indices are clamped to the lattice, which is
a no-op for in-bounds positions. -/
def cornerWeights : List Nat → List ℚ → List (Nat × ℚ)
  | [], _ => [(0, 1)]
  | s :: rest, ps =>
      let q := ps.headD 0
      let fi := floorCell s q
      let t : ℚ := q - (fi : ℚ)
      let lo := min fi (s - 1)
      let hi := min (fi + 1) (s - 1)
      (cornerWeights rest ps.tail).flatMap
        (fun iw => [(lo + s * iw.1, (1 - t) * iw.2), (hi + s * iw.1, t * iw.2)])

/-- Modelled from the spec (§4.3, LINEAR value kernel; the implementation is
not in the source tree): add `f(pos) = value` as one equation over the `2^D`
corners of the enclosing cell; silently dropped (returning `false`) when the
position is out of bounds. -/
def add_value_constraint (field : LatticeField) (pos : List ℚ) (value weight : ℚ) :
    Bool × LatticeField :=
  if posInBounds field.sizes pos then
    (true,
      { field with
          eq := add_equation field.eq weight value (cornerWeights field.sizes pos) })
  else (false, field)

/-- Nearest lattice point along one axis: `round(q) = ⌊q + 1/2⌋`. -/
def roundCoord (q : ℚ) : Int := ⌊q + 1/2⌋

/-- The rounded lattice point of a position. -/
def nearestPoint (pos : List ℚ) : List Int := pos.map roundCoord

/-- Is an integer point inside the lattice (componentwise, with matching
dimension)? -/
def intPointInBounds (sizes : List Nat) (nn : List Int) : Prop :=
  nn.length = sizes.length ∧ ∀ qs ∈ nn.zip sizes, 0 ≤ qs.1 ∧ qs.1 ≤ (qs.2 : Int) - 1

instance (sizes : List Nat) (nn : List Int) : Decidable (intPointInBounds sizes nn) := by
  unfold intPointInBounds; infer_instance

/-- Dot product of two rational vectors (missing entries count as zero). -/
def dotQ (a b : List ℚ) : ℚ := (List.zipWith (fun x y => x * y) a b).sum

/-- Modelled from the spec (§4.3, NEAREST value kernel with gradient): emit
`x[idx(nn)] = value + gradient · (nn − pos)` at the rounded lattice point
`nn`; dropped when `nn` is out of range. -/
def add_value_constraint_nearest_neighbor (field : LatticeField) (pos gradient : List ℚ)
    (value weight : ℚ) : Bool × LatticeField :=
  let nn := nearestPoint pos
  if intPointInBounds field.sizes nn then
    let nnNat := nn.map Int.toNat
    let delta := List.zipWith (fun n q => (n : ℚ) - q) nn pos
    (true,
      { field with
          eq := add_equation field.eq weight (value + dotQ gradient delta)
              [(idxZip field.strides nnNat, 1)] })
  else (false, field)

/-- The `2^D` corners of a cell as boolean offset vectors, enumerated with the
first axis as the least-significant bit. -/
def cornersList : Nat → List (List Bool)
  | 0 => [[]]
  | n + 1 => (cornersList n).flatMap (fun c => [false :: c, true :: c])

/-- Integer coordinates of a cell corner: the floor cell plus a 0/1 offset per
axis, clamped into the lattice. -/
def cornerCoords (sizes : List Nat) (fiList : List Nat) (bits : List Bool) : List Nat :=
  List.zipWith (fun fb s => min (fb.1 + (if fb.2 then 1 else 0)) (s - 1))
    (fiList.zip bits) sizes

/-- The floor cell of a position, per axis. -/
def floorCells (sizes : List Nat) (pos : List ℚ) : List Nat :=
  List.zipWith floorCell sizes pos

/-- The interpolation factor of a corner over the axes other than `d`
(LINEAR gradient kernel): `Π_{d' ≠ d} (t[d']` or `1−t[d'])`. -/
def edgeFactor (sizes : List Nat) (pos : List ℚ) (d : Nat) (bits : List Bool) : ℚ :=
  (((List.zipWith (fun s q => (q - (floorCell s q : ℚ))) sizes pos).zip bits).enum.map
    (fun itb => if itb.1 = d then 1 else if itb.2.2 then itb.2.1 else 1 - itb.2.1)).prod

/-- Modelled from the spec (§4.3, gradient kernels; the implementation is not
in the source tree): add `∇f(pos) = gradient`.

* `kNearestNeighbor`: per axis `d`, the finite difference between the rounded
  point and its successor along `d`.
* `kCellEdges`: per axis `d`, the same finite-difference equation on each of
  the `2^(D−1)` cell edges parallel to `d`.
* `kLinearInterpolation`: per axis `d`, one equation mixing the parallel edges
  with N-linear weights over the remaining axes.

Dropped (returning `false`) when the position is out of bounds. -/
def add_gradient_constraint (field : LatticeField) (pos gradient : List ℚ)
    (weight : ℚ) (kernel : GradientKernel) : Bool × LatticeField :=
  match kernel with
  | GradientKernel.kNearestNeighbor =>
      let nn := nearestPoint pos
      if intPointInBounds field.sizes nn then
        let nnNat := nn.map Int.toNat
        let eq := (List.range field.sizes.length).foldl
          (fun acc d =>
            if nnNat.getD d 0 + 1 ≤ field.sizes.getD d 1 - 1 then
              add_equation acc weight (gradient.getD d 0)
                [(idxZip field.strides (nnNat.set d (nnNat.getD d 0 + 1)), 1),
                 (idxZip field.strides nnNat, -1)]
            else acc)
          field.eq
        (true, { field with eq := eq })
      else (false, field)
  | GradientKernel.kCellEdges =>
      if posInBounds field.sizes pos then
        let fiList := floorCells field.sizes pos
        let eq := (List.range field.sizes.length).foldl
          (fun acc d =>
            ((cornersList field.sizes.length).filter
                (fun c => c.getD d false = false)).foldl
              (fun acc2 c =>
                add_equation acc2 weight (gradient.getD d 0)
                  [(idxZip field.strides
                      (cornerCoords field.sizes fiList (c.set d true)), 1),
                   (idxZip field.strides (cornerCoords field.sizes fiList c), -1)])
              acc)
          field.eq
        (true, { field with eq := eq })
      else (false, field)
  | GradientKernel.kLinearInterpolation =>
      if posInBounds field.sizes pos then
        let fiList := floorCells field.sizes pos
        let eq := (List.range field.sizes.length).foldl
          (fun acc d =>
            add_equation acc weight (gradient.getD d 0)
              (((cornersList field.sizes.length).filter
                  (fun c => c.getD d false = false)).flatMap
                (fun c =>
                  [(idxZip field.strides
                      (cornerCoords field.sizes fiList (c.set d true)),
                    edgeFactor field.sizes pos d (c.set d true)),
                   (idxZip field.strides (cornerCoords field.sizes fiList c),
                    -(edgeFactor field.sizes pos d c))])))
          field.eq
        (true, { field with eq := eq })
      else (false, field)

/-- Modelled from the spec (§6 `add_points`; the implementation is not in the
source tree): add one value constraint (value `0`) and, when normals are
available, one gradient constraint per point, scaling the weights by the
optional per-point weights.  The nearest-neighbor value kernel needs the
normals and falls back to linear interpolation without them. -/
def add_points (field : LatticeField) (value_weight : ℚ) (value_kernel : ValueKernel)
    (gradient_weight : ℚ) (gradient_kernel : GradientKernel)
    (positions : List (List ℚ)) (normals : Option (List (List ℚ)))
    (point_weights : Option (List ℚ)) : LatticeField :=
  match positions with
  | [] => field
  | p :: ps =>
      let w := match point_weights with
        | some l => l.headD 1
        | none => 1
      let f1 := match value_kernel, normals with
        | ValueKernel.kNearestNeighbor, some nl =>
            (add_value_constraint_nearest_neighbor field p (nl.headD []) 0
              (value_weight * w)).2
        | _, _ => (add_value_constraint field p 0 (value_weight * w)).2
      let f2 := match normals with
        | some nl => (add_gradient_constraint f1 p (nl.headD []) (gradient_weight * w)
            gradient_kernel).2
        | none => f1
      add_points f2 value_weight value_kernel gradient_weight gradient_kernel ps
        (normals.map List.tail) (point_weights.map List.tail)

/-- A pending equation: weight, right-hand side, coefficients. -/
structure EqSpec where
  w : ℚ
  r : ℚ
  coeffs : List Coeff
deriving Repr

/-- Append a batch of pending equations to an accumulator. -/
def appendSpecs (eq : LinearEquation) (specs : List EqSpec) : LinearEquation :=
  specs.foldl (fun acc s => add_equation acc s.w s.r s.coeffs) eq

/-- The k-th smoothness weight of a `Weights` bundle. -/
def modelW (w : Weights) : Nat → ℚ
  | 0 => w.model_0
  | 1 => w.model_1
  | 2 => w.model_2
  | 3 => w.model_3
  | 4 => w.model_4
  | _ => 0

/-- Coefficient `j` of the k-th finite-difference stencil
`[+1], [+1,−1], [+1,−2,+1], [+1,−3,+3,−1], [+1,−4,+6,−4,+1]`. -/
def stencilCoef (k j : Nat) : ℚ := (-1) ^ j * (Nat.choose k j : ℚ)

/-- The axes along which a k-wide stencil starting at `p` fits: the stencil
covers `p[d] .. p[d]+k` and is skipped when it exceeds `sizes[d] − 1`. -/
def axesFitting (sizes : List Nat) (p : List Nat) (k : Nat) : List Nat :=
  (List.range sizes.length).filter (fun d => p.getD d 0 + k ≤ sizes.getD d 1 - 1)

/-- The coefficients of the k-th smoothness stencil at point `p` along axis
`d`. -/
def stencilCoeffs (strides : List Nat) (p : List Nat) (d k : Nat) : List Coeff :=
  (List.range (k + 1)).map
    (fun j => (idxZip strides (p.set d (p.getD d 0 + j)), stencilCoef k j))

/-- Modelled from the spec (§4.4; the implementation is not in the source
tree): the smoothness equations contributed by one lattice point — one `rhs=0`
row for `model_0 > 0` (no axis loop), and per axis, for each `k ∈ {1..4}` with
`model_k > 0`, the k-th stencil row wherever it fits. -/
def pointModelSpecs (w : Weights) (sizes strides : List Nat) (p : List Nat) :
    List EqSpec :=
  (if 0 < w.model_0 then [⟨w.model_0, 0, [(idxZip strides p, 1)]⟩] else []) ++
    ([1, 2, 3, 4].flatMap fun k =>
      if 0 < modelW w k then
        (axesFitting sizes p k).map
          (fun d => ⟨modelW w k, 0, stencilCoeffs strides p d k⟩)
      else [])

/-- All lattice points which are the lower corner of a full cell (every
coordinate at most `sizes[d] − 2`). -/
def cellCorners (sizes : List Nat) : List (List Nat) :=
  latticePoints (sizes.map (fun s => s - 1))

/-- Unordered pairs of distinct elements of a list, in order. -/
def distinctPairs : List α → List (α × α)
  | [] => []
  | a :: rest => rest.map (fun b => (a, b)) ++ distinctPairs rest

/-- Modelled from the spec (§4.4, gradient-smoothness prior): for one cell and
one axis `d`, equate the finite differences along every pair of parallel cell
edges: `(x[b] − x[a]) − (x[d] − x[c]) = 0`. -/
def cellSmoothnessSpecs (gs : ℚ) (sizes strides : List Nat) (cell : List Nat) :
    List EqSpec :=
  (List.range sizes.length).flatMap (fun d =>
    (distinctPairs ((cornersList sizes.length).filter
        (fun c => c.getD d false = false))).map
      (fun cc =>
        ⟨gs, 0,
          [(idxZip strides (cornerCoords sizes cell (cc.1.set d true)), 1),
           (idxZip strides (cornerCoords sizes cell cc.1), -1),
           (idxZip strides (cornerCoords sizes cell (cc.2.set d true)), -1),
           (idxZip strides (cornerCoords sizes cell cc.2), 1)]⟩))

/-- Modelled from the spec (§4.4; the implementation is not in the source
tree): `add_field_constraints` emits the smoothness rows of every lattice
point, and, when `gradient_smoothness > 0`, the opposing-edge rows of every
cell. -/
def add_field_constraints (field : LatticeField) (w : Weights) : LatticeField :=
  let f1 :=
    { field with
        eq := (latticePoints field.sizes).foldl
          (fun acc p => appendSpecs acc (pointModelSpecs w field.sizes field.strides p))
          field.eq }
  if 0 < w.gradient_smoothness then
    { f1 with
        eq := (cellCorners f1.sizes).foldl
          (fun acc c =>
            appendSpecs acc
              (cellSmoothnessSpecs w.gradient_smoothness f1.sizes f1.strides c))
          f1.eq }
  else f1

/-- The number of smoothness equations one lattice point contributes: one for
`model_0 > 0` (no axis loop), and one per axis with a fitting k-wide stencil
for each `k ∈ {1..4}` with `model_k > 0`. -/
def pointEqCount (w : Weights) (sizes p : List Nat) : Nat :=
  (if 0 < w.model_0 then 1 else 0) +
    ([1, 2, 3, 4].map
      (fun k => if 0 < modelW w k then (axesFitting sizes p k).length else 0)).sum

/-- The total number of smoothness equations of the `model_k` priors. -/
def modelEqCount (w : Weights) (sizes : List Nat) : Nat :=
  ((latticePoints sizes).map (pointEqCount w sizes)).sum

/-- Scale a position from `[0,1]^D` into lattice coordinates, multiplying
coordinate `d` by `sizes[d] − 1`. -/
def scalePos : List Nat → List ℚ → List ℚ
  | [], _ => []
  | _, [] => []
  | s :: sizes, x :: xs => x * ((s : ℚ) - 1) :: scalePos sizes xs

/-- Modelled from the spec (§6 `sdf_from_points`; the implementation is not in
the source tree): build a `LatticeField`, scale the positions from `[0,1]^D`
into lattice coordinates, add the field constraints, and add the points with
value `0` and the normals as gradients.  (Note: the demo `main.cpp` scales the
positions itself before calling this helper.) -/
def sdf_from_points (sizes : List Nat) (w : Weights) (positions : List (List ℚ))
    (normals : Option (List (List ℚ))) (point_weights : Option (List ℚ)) :
    LatticeField :=
  let field := LatticeField.init sizes
  let field := add_field_constraints field w
  let lattice_positions := positions.map (scalePos sizes)
  add_points field w.data_pos w.value_kernel w.data_gradient w.gradient_kernel
    lattice_positions normals point_weights

/-- N-linear interpolation of a flat field at a real-valued position. -/
def interpValue (data : List ℚ) (sizes : List Nat) (p : List ℚ) : ℚ :=
  ((cornerWeights sizes p).map (fun iw => iw.2 * data.getD iw.1 0)).sum

/-- Modelled from the spec (§4.8; the implementation is not in the source
tree): resample a field from `small_sizes` to `large_sizes` by mapping each
target point `q` to `p[d] = q[d]·(small[d]−1)/(large[d]−1)` and N-linearly
interpolating the source field there. -/
def upscale_field (data : List ℚ) (small_sizes large_sizes : List Nat) : List ℚ :=
  (latticePoints large_sizes).map (fun qc =>
    interpValue data small_sizes
      (List.zipWith (fun (q : ℕ) (sl : ℕ × ℕ) =>
          (q : ℚ) * ((sl.1 : ℚ) - 1) / ((sl.2 : ℚ) - 1))
        qc (small_sizes.zip large_sizes)))

/-- Solve options of the approximate lattice solver (declared in
`sparse_linear.hpp`, surfaced by the demo's option window). -/
structure SolveOptions where
  downscale_factor : Nat
  tile : Bool
  tile_size : Nat
  cg : Bool
  error_tolerance : ℚ
deriving Repr

/-- Sparse matrix–vector product `A·x`: accumulate `value · x[col]` into entry
`row` of a zero vector of the given length. -/
def matVec (triplets : List Triplet) (rows : Nat) (x : List ℚ) : List ℚ :=
  triplets.foldl
    (fun acc t => acc.set t.row (acc.getD t.row 0 + t.value * x.getD t.col 0))
    (List.replicate rows 0)

/-- Transposed sparse matrix–vector product `Aᵀ·v`. -/
def matTVec (triplets : List Triplet) (cols : Nat) (v : List ℚ) : List ℚ :=
  triplets.foldl
    (fun acc t => acc.set t.col (acc.getD t.col 0 + t.value * v.getD t.row 0))
    (List.replicate cols 0)

/-- Componentwise sum. -/
def vAdd (a b : List ℚ) : List ℚ := List.zipWith (fun x y => x + y) a b

/-- Componentwise difference. -/
def vSub (a b : List ℚ) : List ℚ := List.zipWith (fun x y => x - y) a b

/-- Scalar multiple. -/
def vScale (c : ℚ) (a : List ℚ) : List ℚ := a.map (fun x => c * x)

/-- Squared Euclidean norm. -/
def normSq (a : List ℚ) : ℚ := (a.map (fun x => x * x)).sum

/-- The squared residual `‖A·x − b‖²` of the system given by the triplets and
the rhs vector. -/
def residualSq (triplets : List Triplet) (rhs : List ℚ) (x : List ℚ) : ℚ :=
  normSq (vSub (matVec triplets rhs.length x) rhs)

/-- The dense matrix of the triplets (`rows × cols`, duplicates summed). -/
def denseOf (triplets : List Triplet) (rows cols : Nat) : List (List ℚ) :=
  triplets.foldl
    (fun acc t =>
      acc.set t.row ((acc.getD t.row []).set t.col
        ((acc.getD t.row []).getD t.col 0 + t.value)))
    (List.replicate rows (List.replicate cols 0))

/-- Dense matrix–vector product. -/
def denseMatVec (m : List (List ℚ)) (v : List ℚ) : List ℚ :=
  m.map (fun r => dotQ r v)

/-- Dense matrix product. -/
def denseMul (a b : List (List ℚ)) : List (List ℚ) :=
  a.map (fun r => (b.transpose).map (fun c => dotQ r c))

/-- Pick the first row with a non-zero leading coefficient, returning it and
the remaining rows. -/
def findPivot : List (List ℚ) → Option (List ℚ × List (List ℚ))
  | [] => none
  | r :: rs =>
      if r.headD 0 ≠ 0 then some (r, rs)
      else match findPivot rs with
        | none => none
        | some (p, rest) => some (p, r :: rest)

/-- Exact Gaussian elimination on an augmented system of `n` unknowns (each
row is the `n` coefficients followed by the right-hand side); `none` when a
pivot is missing (singular matrix). -/
def gaussSolve : Nat → List (List ℚ) → Option (List ℚ)
  | 0, _ => some []
  | n + 1, rows =>
      match findPivot rows with
      | none => none
      | some (p, rest) =>
          let a := p.headD 1
          let pr := p.tail.map (fun x => x / a)
          let rest2 := rest.map (fun r =>
            List.zipWith (fun x y => x - r.headD 0 * y) r.tail pr)
          match gaussSolve n rest2 with
          | none => none
          | some xs => some ((pr.getD n 0 - dotQ pr xs) :: xs)

/-- Modelled from the spec (§4.5; `sparse_linear.cpp` is not in the source
tree): form the normal equations `AᵀA x = Aᵀb` and solve them exactly;
empty vector when the factorization fails (singular system). -/
def solve_sparse_linear (n : Nat) (triplets : List Triplet) (rhs : List ℚ) :
    List ℚ :=
  let a := denseOf triplets rhs.length n
  let at_ := a.transpose
  let m := denseMul at_ a
  let y := denseMatVec at_ rhs
  match gaussSolve n (List.zipWith (fun r v => r ++ [v]) m y) with
  | some x => x
  | none => []

/-- Coarse lattice sizes of stage A: `max 2 ⌈s / downscale_factor⌉`. -/
def coarseSizesOf (sizes : List Nat) (f : Nat) : List Nat :=
  sizes.map (fun s => max 2 ((s + f - 1) / f))

/-- Modelled from the spec (§4.6 stage A): the coarse system.  The spec defers
re-assembly at coarse resolution to a caller-supplied callable, which the
declared signature does not have; the coarse system is therefore modelled by
substituting the §4.8 up-sampling interpolation into the fine system — every
fine column is distributed onto the corners of its coarse cell. -/
def downscaledTriplets (triplets : List Triplet) (sizes coarse : List Nat) :
    List Triplet :=
  triplets.flatMap (fun t =>
    let q := coordsOf sizes t.col
    let p := List.zipWith (fun (qd : ℕ) (sl : ℕ × ℕ) =>
        (qd : ℚ) * ((sl.2 : ℚ) - 1) / ((sl.1 : ℚ) - 1))
      q (sizes.zip coarse)
    (cornerWeights coarse p).map (fun iw => ⟨t.row, iw.1, t.value * iw.2⟩))

/-- Stage A of the approximate solver: solve the coarse system exactly and
up-sample; fall back to the zero field when the coarse solve fails. -/
def guessOf (triplets : List Triplet) (rhs : List ℚ) (sizes : List Nat)
    (opts : SolveOptions) : List ℚ :=
  let coarse := coarseSizesOf sizes opts.downscale_factor
  let xc := solve_sparse_linear (numUnknowns coarse)
    (downscaledTriplets triplets sizes coarse) rhs
  if xc.length = numUnknowns coarse then upscale_field xc coarse sizes
  else List.replicate (numUnknowns sizes) 0

/-- The per-axis tile segments: starts at multiples of `tile_size`, the last
segment truncated at the axis size. -/
def tileSegments (s tileSize : Nat) : List (Nat × Nat) :=
  (List.range ((s + tileSize - 1) / tileSize)).map
    (fun i => (i * tileSize, min tileSize (s - i * tileSize)))

/-- Cartesian product of per-axis lists. -/
def cartesianProd : List (List α) → List (List α)
  | [] => [[]]
  | l :: rest => (cartesianProd rest).flatMap (fun r => l.map (fun x => x :: r))

/-- All tiles of the lattice: one segment per axis. -/
def tilesOf (sizes : List Nat) (tileSize : Nat) : List (List (Nat × Nat)) :=
  cartesianProd (sizes.map (fun s => tileSegments s tileSize))

/-- Does flat column `c` lie inside the tile? -/
def inTile (sizes : List Nat) (tile : List (Nat × Nat)) (c : Nat) : Bool :=
  ((coordsOf sizes c).zip tile).all
    (fun qt => decide (qt.2.1 ≤ qt.1) && decide (qt.1 < qt.2.1 + qt.2.2))

/-- Modelled from the spec (§4.6 stage B): refine one tile.  Equations keep
their rows; in-tile columns are re-indexed into the tile, out-of-tile columns
are substituted from the current estimate into the rhs.  The tile's exact
solution is written back; on failure the tile keeps the current estimate. -/
def refineTile (triplets : List Triplet) (rhs : List ℚ) (sizes : List Nat)
    (x : List ℚ) (tile : List (Nat × Nat)) : List ℚ :=
  let cols := (List.range (numUnknowns sizes)).filter (fun c => inTile sizes tile c)
  let tloc := triplets.filterMap (fun t =>
    if inTile sizes tile t.col then some ⟨t.row, cols.indexOf t.col, t.value⟩
    else none)
  let rhsloc := triplets.foldl
    (fun acc t =>
      if inTile sizes tile t.col then acc
      else acc.set t.row (acc.getD t.row 0 - t.value * x.getD t.col 0))
    rhs
  let sol := solve_sparse_linear cols.length tloc rhsloc
  if sol.length = cols.length then
    (cols.zip sol).foldl (fun acc cs => acc.set cs.1 cs.2) x
  else x

/-- Stage B of the approximate solver: tiled refinement of the guess. -/
def tiledOf (triplets : List Triplet) (rhs : List ℚ) (sizes : List Nat)
    (opts : SolveOptions) : List ℚ :=
  if opts.tile then
    (tilesOf sizes opts.tile_size).foldl (refineTile triplets rhs sizes)
      (guessOf triplets rhs sizes opts)
  else guessOf triplets rhs sizes opts

/-- Of two candidate solutions, the one with the smaller residual (the first
on ties). -/
def pickBetter (triplets : List Triplet) (rhs : List ℚ) (x y : List ℚ) : List ℚ :=
  if residualSq triplets rhs x ≤ residualSq triplets rhs y then x else y

/-- The best intermediate estimate entering stage C: the better of the tiled
refinement and the up-sampled coarse guess. -/
def startOf (triplets : List Triplet) (rhs : List ℚ) (sizes : List Nat)
    (opts : SolveOptions) : List ℚ :=
  pickBetter triplets rhs (tiledOf triplets rhs sizes opts)
    (guessOf triplets rhs sizes opts)

/-- Conjugate-gradient iteration on `M x = y` (`M` SPD), stopping at the
residual threshold or when the fuel (the hard iteration cap) runs out. -/
def cgIter (mulM : List ℚ → List ℚ) (threshold : ℚ) :
    Nat → List ℚ → List ℚ → List ℚ → List ℚ
  | 0, x, _, _ => x
  | fuel + 1, x, r, p =>
      if normSq r ≤ threshold then x
      else
        let mp := mulM p
        let alpha := normSq r / dotQ p mp
        let x2 := vAdd x (vScale alpha p)
        let r2 := vSub r (vScale alpha mp)
        let beta := normSq r2 / normSq r
        cgIter mulM threshold fuel x2 r2 (vAdd r2 (vScale beta p))

/-- Modelled from the spec (§4.6 stage C): conjugate-gradient polish of a
starting estimate on the normal equations `AᵀA x = Aᵀb`, stopping at relative
residual `error_tolerance` or at the iteration cap. -/
def cgOf (triplets : List Triplet) (rhs : List ℚ) (sizes : List Nat)
    (opts : SolveOptions) : List ℚ :=
  let x0 := startOf triplets rhs sizes opts
  if opts.cg then
    let n := numUnknowns sizes
    let y := matTVec triplets n rhs
    let mulM := fun v => matTVec triplets n (matVec triplets rhs.length v)
    let r0 := vSub y (mulM x0)
    cgIter mulM (opts.error_tolerance ^ 2 * normSq y) n x0 r0 r0
  else x0

/-- Modelled from the spec (§4.6 and §7; `sparse_linear.cpp` is not in the
source tree): coarse solve, up-sample, optional tiled refinement, optional
conjugate-gradient polish; the result never worsens the pre-CG estimate, and
ill-conditioned stages fall back to the best intermediate estimate
(`x_tiled`, `x_guess` or zero). -/
def solve_sparse_linear_approximate_lattice (triplets : List Triplet)
    (rhs : List ℚ) (sizes : List Nat) (opts : SolveOptions) : List ℚ :=
  pickBetter triplets rhs (cgOf triplets rhs sizes opts)
    (startOf triplets rhs sizes opts)

/-- Well-formedness of an equation accumulator over `N` unknowns: every
triplet's row index is below the number of rhs entries and every column index
is below `N`. -/
def eqWF (N : Nat) (eq : LinearEquation) : Prop :=
  ∀ tr ∈ eq.triplets, tr.row < eq.rhs.length ∧ tr.col < N

/-- The data-model invariant of a `LatticeField` (spec §3): every stored
triplet has `row < len(rhs)` and `col < N = Π sizes[d]`. -/
def latticeWF (f : LatticeField) : Prop :=
  eqWF (numUnknowns f.sizes) f.eq

/-- One constraint-adding operation of the public API. -/
inductive Op where
  | fieldConstraints (w : Weights)
  | valueConstraint (pos : List ℚ) (value weight : ℚ)
  | valueConstraintNN (pos gradient : List ℚ) (value weight : ℚ)
  | gradientConstraint (pos gradient : List ℚ) (weight : ℚ) (kernel : GradientKernel)
  | points (vw : ℚ) (vk : ValueKernel) (gw : ℚ) (gk : GradientKernel)
      (positions : List (List ℚ)) (normals : Option (List (List ℚ)))
      (pws : Option (List ℚ))

/-- Apply one constraint-adding operation to a field. -/
def applyOp (f : LatticeField) : Op → LatticeField
  | Op.fieldConstraints w => add_field_constraints f w
  | Op.valueConstraint pos v w => (add_value_constraint f pos v w).2
  | Op.valueConstraintNN pos g v w =>
      (add_value_constraint_nearest_neighbor f pos g v w).2
  | Op.gradientConstraint pos g w k => (add_gradient_constraint f pos g w k).2
  | Op.points vw vk gw gk ps ns pws => add_points f vw vk gw gk ps ns pws

/-- Apply a sequence of constraint-adding operations. -/
def applyOps (f : LatticeField) (ops : List Op) : LatticeField :=
  ops.foldl applyOp f

theorem foldl_append_singleton (f : α → β) :
    ∀ (cs : List α) (init : List β),
      cs.foldl (fun acc c => acc ++ [f c]) init = init ++ cs.map f := by
  intro cs
  induction cs with
  | nil => intro init; simp
  | cons c cs ih => intro init; simp [ih]

theorem pickBetter_le_right (t : List Triplet) (rhs x y : List ℚ) :
    residualSq t rhs (pickBetter t rhs x y) ≤ residualSq t rhs y := by
  unfold pickBetter
  split
  · assumption
  · exact le_refl _

theorem scalePos_eq_zipWith :
    ∀ (sizes : List Nat) (p : List ℚ),
      scalePos sizes p = List.zipWith (fun (s : ℕ) (x : ℚ) => x * ((s : ℚ) - 1)) sizes p := by
  intro sizes
  induction sizes with
  | nil => intro p; cases p <;> rfl
  | cons s ss ih =>
      intro p
      cases p with
      | nil => rfl
      | cons x xs => simp [scalePos, ih]

/-- C10: a default-constructed `Weights` has `data_pos = 1`,
`data_gradient = 1`, `model_2 = 1/2`, all other smoothness weights and the
gradient-smoothness weight `0`, value kernel linear interpolation and gradient
kernel cell edges (so the default smoothness prior is the order-2 one, and the
default gradient kernel is `kCellEdges`, not `kLinearInterpolation`). -/
theorem weights_default_values :
    (({} : Weights).data_pos = 1) ∧ (({} : Weights).data_gradient = 1) ∧
    (({} : Weights).model_0 = 0) ∧ (({} : Weights).model_1 = 0) ∧
    (({} : Weights).model_2 = 1 / 2) ∧ (({} : Weights).model_3 = 0) ∧
    (({} : Weights).model_4 = 0) ∧ (({} : Weights).gradient_smoothness = 0) ∧
    (({} : Weights).value_kernel = ValueKernel.kLinearInterpolation) ∧
    (({} : Weights).gradient_kernel = GradientKernel.kCellEdges) ∧
    (({} : Weights).gradient_kernel ≠ GradientKernel.kLinearInterpolation) := by
  refine ⟨rfl, rfl, rfl, rfl, rfl, rfl, rfl, rfl, rfl, rfl, ?_⟩
  decide

/-- C5: `add_equation` with zero weight is a no-op (no triplet and no rhs
entry is appended); with nonzero weight it appends exactly one row whose
coefficients and rhs are multiplied by the weight. -/
theorem add_equation_characterization (eq : LinearEquation) (w r : ℚ)
    (cs : List Coeff) :
    add_equation eq w r cs =
      if w = 0 then eq
      else
        ⟨eq.triplets ++ cs.map (fun c => ⟨eq.rhs.length, c.1, w * c.2⟩),
          eq.rhs ++ [w * r]⟩ := by
  unfold add_equation
  split
  · rfl
  · rw [foldl_append_singleton]

/-- C2: the approximate lattice solver returns a vector whose residual is no
worse than the up-sampled coarse guess `x_guess`; and it is the better of the
conjugate-gradient polish and the pre-CG estimate, so a diverging CG polish
never worsens its starting estimate. -/
theorem approx_solver_residual_monotone (t : List Triplet) (rhs : List ℚ)
    (sizes : List Nat) (opts : SolveOptions) :
    residualSq t rhs (solve_sparse_linear_approximate_lattice t rhs sizes opts) ≤
        residualSq t rhs (guessOf t rhs sizes opts) ∧
      solve_sparse_linear_approximate_lattice t rhs sizes opts =
        pickBetter t rhs (cgOf t rhs sizes opts) (startOf t rhs sizes opts) := by
  constructor
  · calc
      residualSq t rhs (solve_sparse_linear_approximate_lattice t rhs sizes opts) ≤
          residualSq t rhs (startOf t rhs sizes opts) :=
        pickBetter_le_right t rhs _ _
      _ ≤ residualSq t rhs (guessOf t rhs sizes opts) := pickBetter_le_right t rhs _ _
  · rfl

/-- C4: `sdf_from_points` builds a lattice field, adds the field constraints,
scales every position by `sizes[d] − 1` per coordinate, and hands the scaled
positions with the normals as gradients to `add_points` (which constrains the
value to `0`). -/
theorem sdf_from_points_pipeline (sizes : List Nat) (w : Weights)
    (positions : List (List ℚ)) (normals : Option (List (List ℚ)))
    (point_weights : Option (List ℚ)) :
    sdf_from_points sizes w positions normals point_weights =
      add_points (add_field_constraints (LatticeField.init sizes) w)
        w.data_pos w.value_kernel w.data_gradient w.gradient_kernel
        (positions.map (fun p =>
          List.zipWith (fun (s : ℕ) (x : ℚ) => x * ((s : ℚ) - 1)) sizes p))
        normals point_weights := by
  show add_points (add_field_constraints (LatticeField.init sizes) w)
      w.data_pos w.value_kernel w.data_gradient w.gradient_kernel
      (positions.map (scalePos sizes)) normals point_weights = _
  have h : scalePos sizes =
      fun p => List.zipWith (fun (s : ℕ) (x : ℚ) => x * ((s : ℚ) - 1)) sizes p :=
    funext fun p => scalePos_eq_zipWith sizes p
  rw [h]

/-- C3: on a 1-D lattice of sizes `[10]` with the linear value kernel and any
nonzero weight, a value constraint at `−0.5` is rejected, one at `9.0` (the
exact upper boundary) is accepted, one at `10.01` is rejected, and the three
calls together add exactly one equation. -/
theorem value_constraint_boundary_scenario (w : ℚ) (hw : w ≠ 0) :
    ((add_value_constraint (LatticeField.init [10]) [-(1 : ℚ) / 2] 4 w).1 = false) ∧
      ((add_value_constraint
          (add_value_constraint (LatticeField.init [10]) [-(1 : ℚ) / 2] 4 w).2
          [(9 : ℚ)] 2 w).1 = true) ∧
      ((add_value_constraint
          (add_value_constraint
            (add_value_constraint (LatticeField.init [10]) [-(1 : ℚ) / 2] 4 w).2
            [(9 : ℚ)] 2 w).2
          [(1001 : ℚ) / 100] 7 w).1 = false) ∧
      ((add_value_constraint
          (add_value_constraint
            (add_value_constraint (LatticeField.init [10]) [-(1 : ℚ) / 2] 4 w).2
            [(9 : ℚ)] 2 w).2
          [(1001 : ℚ) / 100] 7 w).2.eq.rhs.length = 1) := by
  have h1 : ¬ posInBounds [10] [-(1 : ℚ) / 2] := by
    norm_num [posInBounds]
  have h2 : posInBounds [10] [(9 : ℚ)] := by
    norm_num [posInBounds]
  have h3 : ¬ posInBounds [10] [(1001 : ℚ) / 100] := by
    norm_num [posInBounds]
  refine ⟨?_, ?_, ?_, ?_⟩ <;>
    simp [add_value_constraint, LatticeField.init, h1, h2, h3, add_equation, hw]

/-- Witness for C3 at weight `1`. -/
theorem value_constraint_boundary_scenario_witness :
    ((1 : ℚ) ≠ 0) ∧
      (((add_value_constraint (LatticeField.init [10]) [-(1 : ℚ) / 2] 4 1).1 = false) ∧
        ((add_value_constraint
            (add_value_constraint (LatticeField.init [10]) [-(1 : ℚ) / 2] 4 1).2
            [(9 : ℚ)] 2 1).1 = true) ∧
        ((add_value_constraint
            (add_value_constraint
              (add_value_constraint (LatticeField.init [10]) [-(1 : ℚ) / 2] 4 1).2
              [(9 : ℚ)] 2 1).2
            [(1001 : ℚ) / 100] 7 1).1 = false) ∧
        ((add_value_constraint
            (add_value_constraint
              (add_value_constraint (LatticeField.init [10]) [-(1 : ℚ) / 2] 4 1).2
              [(9 : ℚ)] 2 1).2
            [(1001 : ℚ) / 100] 7 1).2.eq.rhs.length = 1)) :=
  ⟨one_ne_zero, value_constraint_boundary_scenario 1 one_ne_zero⟩

/-- C7: on a `[3,3]` lattice, a cell-edges gradient constraint at `(0.5, 0.5)`
with gradient `(1, 0)` and weight `1` emits exactly four equations, one per
parallel cell edge: `x[(1,0)] − x[(0,0)] = 1`, `x[(1,1)] − x[(0,1)] = 1`,
`x[(0,1)] − x[(0,0)] = 0` and `x[(1,1)] − x[(1,0)] = 0` (the flat indices of
`(i,j)` being `i + 3j`). -/
theorem gradient_cell_edges_scenario :
    (add_gradient_constraint (LatticeField.init [3, 3]) [(1 : ℚ) / 2, 1 / 2]
        [1, 0] 1 GradientKernel.kCellEdges).1 = true ∧
      (add_gradient_constraint (LatticeField.init [3, 3]) [(1 : ℚ) / 2, 1 / 2]
          [1, 0] 1 GradientKernel.kCellEdges).2.eq =
        ⟨[⟨0, 1, 1⟩, ⟨0, 0, -1⟩, ⟨1, 4, 1⟩, ⟨1, 3, -1⟩,
          ⟨2, 3, 1⟩, ⟨2, 0, -1⟩, ⟨3, 4, 1⟩, ⟨3, 1, -1⟩],
          [1, 1, 0, 0]⟩ := by
  have hp : posInBounds [3, 3] [(1 : ℚ) / 2, 1 / 2] := by
    norm_num [posInBounds]
  have hf : ⌊(1 : ℚ) / 2⌋ = 0 := by norm_num
  constructor <;>
    norm_num [add_gradient_constraint, LatticeField.init, hp, hf, floorCells,
      floorCell, cornerCoords, cornersList, idxZip, stridesOf, add_equation,
      List.range_succ, LinearEquation.mk.injEq]

theorem sum_flatMapQ (f : α → List ℚ) :
    ∀ l : List α, (l.flatMap f).sum = (l.map (fun a => (f a).sum)).sum := by
  intro l
  induction l with
  | nil => rfl
  | cons a l ih => simp [List.flatMap_cons, List.sum_append, ih]

theorem latticePoints_bounds :
    ∀ (sizes : List Nat), ∀ p ∈ latticePoints sizes,
      p.length = sizes.length ∧ ∀ pr ∈ p.zip sizes, pr.1 < pr.2 := by
  intro sizes
  induction sizes with
  | nil =>
      intro p hp
      simp [latticePoints] at hp
      subst hp
      simp
  | cons s rest ih =>
      intro p hp
      simp only [latticePoints, List.mem_flatMap, List.mem_map, List.mem_range] at hp
      obtain ⟨q, hq, i, hi, rfl⟩ := hp
      obtain ⟨hlen, hb⟩ := ih q hq
      refine ⟨by simp [hlen], ?_⟩
      intro pr hpr
      simp only [List.zip_cons_cons, List.mem_cons] at hpr
      rcases hpr with h | h
      · subst h; exact hi
      · exact hb pr h

theorem range_mul_flatMap (s : Nat) :
    ∀ m : Nat,
      (List.range m).flatMap (fun j => (List.range s).map (fun i => i + s * j)) =
        List.range (s * m) := by
  intro m
  induction m with
  | zero => simp
  | succ m ih =>
      rw [List.range_succ, List.flatMap_append, ih, Nat.mul_succ, List.range_add]
      simp only [List.flatMap_cons, List.flatMap_nil, List.append_nil]
      congr 1
      exact List.map_congr_left (fun i _ => Nat.add_comm i (s * m))

theorem flatMap_congr_mem {l : List α} {f g : α → List β} (h : ∀ a ∈ l, f a = g a) :
    l.flatMap f = l.flatMap g := by
  induction l with
  | nil => rfl
  | cons a l ih =>
      simp only [List.flatMap_cons]
      rw [h a (by simp), ih (fun b hb => h b (by simp [hb]))]

theorem flatIdx_latticePoints :
    ∀ sizes : List Nat,
      (latticePoints sizes).map (flatIdx sizes) = List.range (numUnknowns sizes) := by
  intro sizes
  induction sizes with
  | nil => rfl
  | cons s rest ih =>
      show ((latticePoints rest).flatMap
          (fun p => (List.range s).map (fun i => i :: p))).map (flatIdx (s :: rest)) = _
      rw [List.map_flatMap]
      have h1 : ∀ p ∈ latticePoints rest,
          ((List.range s).map (fun i => i :: p)).map (flatIdx (s :: rest)) =
            (List.range s).map (fun i => i + s * flatIdx rest p) := by
        intro p _
        rw [List.map_map]
        rfl
      rw [flatMap_congr_mem h1,
        ← List.flatMap_map (flatIdx rest)
          (fun j => (List.range s).map (fun i => i + s * j)) (latticePoints rest),
        ih, range_mul_flatMap]
      simp [numUnknowns]

theorem map_getD_range :
    ∀ (x : List ℚ), (List.range x.length).map (fun i => x.getD i 0) = x := by
  intro x
  induction x with
  | nil => rfl
  | cons a xs ih =>
      rw [List.length_cons, List.range_succ_eq_map, List.map_cons, List.map_map]
      have h2 : (List.range xs.length).map ((fun i => (a :: xs).getD i 0) ∘ Nat.succ) =
          (List.range xs.length).map (fun i => xs.getD i 0) :=
        List.map_congr_left (fun i _ => rfl)
      rw [h2, ih]
      rfl

theorem upscale_coordMap_self :
    ∀ (S q : List Nat),
      q.length = S.length →
      (∀ pr ∈ q.zip S, pr.1 < pr.2) →
      List.zipWith (fun (a : ℕ) (sl : ℕ × ℕ) =>
          (a : ℚ) * ((sl.1 : ℚ) - 1) / ((sl.2 : ℚ) - 1)) q (S.zip S) =
        q.map (fun (n : ℕ) => (n : ℚ)) := by
  intro S
  induction S with
  | nil =>
      intro q hlen _
      have : q = [] := List.eq_nil_of_length_eq_zero hlen
      subst this
      rfl
  | cons s rest ih =>
      intro q hlen hb
      cases q with
      | nil => simp at hlen
      | cons c cs =>
          simp only [List.zip_cons_cons, List.zipWith_cons_cons, List.map_cons]
          congr 1
          · by_cases hs : ((s : ℚ) - 1) = 0
            · have hs1 : s = 1 := by
                have : (s : ℚ) = 1 := by linarith
                exact_mod_cast this
              have hc : c < s := hb (c, s) (by simp)
              have hc0 : c = 0 := by omega
              subst hc0
              simp [hs]
            · rw [mul_div_assoc, div_self hs, mul_one]
          · refine ih cs (by simpa using hlen) ?_
            intro pr hpr
            exact hb pr (by simp [hpr])

theorem cornerWeights_at_lattice_point :
    ∀ (sizes q : List Nat) (g : Nat → ℚ),
      q.length = sizes.length →
      (∀ pr ∈ q.zip sizes, pr.1 < pr.2) →
      ((cornerWeights sizes (q.map (fun (n : ℕ) => (n : ℚ)))).map
          (fun iw => iw.2 * g iw.1)).sum = g (flatIdx sizes q) := by
  intro sizes
  induction sizes with
  | nil =>
      intro q g hlen _
      have : q = [] := List.eq_nil_of_length_eq_zero hlen
      subst this
      simp [cornerWeights, flatIdx]
  | cons s rest ih =>
      intro q g hlen hb
      cases q with
      | nil => simp at hlen
      | cons c cs =>
          have hc : c < s := hb (c, s) (by simp)
          have hlen2 : cs.length = rest.length := by simpa using hlen
          have hb2 : ∀ pr ∈ cs.zip rest, pr.1 < pr.2 := by
            intro pr hpr
            exact hb pr (by simp [hpr])
          have hfloor : (⌊((c : ℕ) : ℚ)⌋).toNat = c := by
            rw [Int.floor_natCast, Int.toNat_ofNat]
          simp only [List.map_cons, cornerWeights, List.headD_cons, List.tail_cons,
            floorCell, hfloor]
          rw [List.map_flatMap, sum_flatMapQ]
          by_cases hcase : c ≤ s - 2
          · have hfi : min c (s - 2) = c := Nat.min_eq_left hcase
            have hlo : min c (s - 1) = c := Nat.min_eq_left (by omega)
            rw [hfi]
            refine Eq.trans (congrArg List.sum (List.map_congr_left ?_))
              (ih cs (fun j => g (c + s * j)) hlen2 hb2)
            intro iw _
            simp [hlo]
          · have hceq : c = s - 1 := by omega
            have hfi : min c (s - 2) = s - 2 := Nat.min_eq_right (by omega)
            have hhi : min (s - 2 + 1) (s - 1) = s - 1 := by
              have h3 : s - 2 + 1 = s - 1 := by omega
              rw [h3, Nat.min_self]
            have ht : ((s - 1 : ℕ) : ℚ) - ((s - 2 : ℕ) : ℚ) = 1 := by
              rw [Nat.cast_sub (by omega), Nat.cast_sub (by omega)]
              push_cast
              ring
            rw [hfi]
            refine Eq.trans (congrArg List.sum (List.map_congr_left ?_))
              (ih cs (fun j => g (c + s * j)) hlen2 hb2)
            intro iw _
            simp [hceq, ht, hhi]

theorem appendSpecs_rhs (specs : List EqSpec) :
    ∀ eq : LinearEquation,
      (∀ s ∈ specs, s.w ≠ 0 ∧ s.r = 0) →
      (appendSpecs eq specs).rhs = eq.rhs ++ List.replicate specs.length 0 := by
  induction specs with
  | nil => intro eq _; simp [appendSpecs]
  | cons s specs ih =>
      intro eq h
      obtain ⟨hw, hr⟩ := h s (by simp)
      show (appendSpecs (add_equation eq s.w s.r s.coeffs) specs).rhs = _
      rw [ih _ (fun t ht => h t (by simp [ht]))]
      have he : (add_equation eq s.w s.r s.coeffs).rhs = eq.rhs ++ [0] := by
        unfold add_equation
        rw [if_neg hw, hr, mul_zero]
      rw [he, List.append_assoc]
      simp [List.replicate_succ]

theorem pointModelSpecs_sound (w : Weights) (sizes strides p : List Nat) :
    ∀ s ∈ pointModelSpecs w sizes strides p, s.w ≠ 0 ∧ s.r = 0 := by
  intro s hs
  unfold pointModelSpecs at hs
  rw [List.mem_append] at hs
  rcases hs with hs | hs
  · split at hs
    · next h0 =>
        simp only [List.mem_singleton] at hs
        subst hs
        exact ⟨ne_of_gt h0, rfl⟩
    · simp at hs
  · simp only [List.mem_flatMap] at hs
    obtain ⟨k, _, hk⟩ := hs
    split at hk
    · next hpos =>
        simp only [List.mem_map] at hk
        obtain ⟨d, _, rfl⟩ := hk
        exact ⟨ne_of_gt hpos, rfl⟩
    · simp at hk

theorem pointModelSpecs_length (w : Weights) (sizes strides p : List Nat) :
    (pointModelSpecs w sizes strides p).length = pointEqCount w sizes p := by
  unfold pointModelSpecs pointEqCount
  rw [List.length_append, List.length_flatMap]
  congr 1
  · split <;> rfl
  · congr 1
    refine List.map_congr_left ?_
    intro k _
    simp only [Function.comp_apply]
    split
    · exact List.length_map _ _
    · rfl

theorem foldl_pointSpecs_rhs (w : Weights) (sizes strides : List Nat) :
    ∀ (pts : List (List Nat)) (eq : LinearEquation),
      (pts.foldl (fun acc p => appendSpecs acc (pointModelSpecs w sizes strides p))
          eq).rhs =
        eq.rhs ++ List.replicate ((pts.map (pointEqCount w sizes)).sum) 0 := by
  intro pts
  induction pts with
  | nil => intro eq; simp
  | cons p pts ih =>
      intro eq
      rw [List.foldl_cons, ih,
        appendSpecs_rhs _ _ (pointModelSpecs_sound w sizes strides p),
        pointModelSpecs_length, List.append_assoc, ← List.replicate_add]
      simp [Nat.add_comm]

/-- C6: with the gradient-smoothness prior off, `add_field_constraints`
appends exactly one zero-rhs equation per lattice point when `model_0 > 0`
(no axis loop), plus, for each `k ∈ {1,2,3,4}` with `model_k > 0`, one
zero-rhs equation per lattice point and per axis on which the k-wide stencil
fits (skipped when the stencil exceeds `sizes[d] − 1`). -/
theorem add_field_constraints_rhs_count (f : LatticeField) (w : Weights)
    (hgs : w.gradient_smoothness = 0) :
    (add_field_constraints f w).eq.rhs =
      f.eq.rhs ++ List.replicate (modelEqCount w f.sizes) 0 := by
  unfold add_field_constraints
  rw [if_neg (by rw [hgs]; exact lt_irrefl 0)]
  exact foldl_pointSpecs_rhs w f.sizes f.strides (latticePoints f.sizes) f.eq

/-- Witness for C6: default weights (`model_2 = 1/2`, all else zero) on a 1-D
lattice of size 3. -/
theorem add_field_constraints_rhs_count_witness :
    (({} : Weights).gradient_smoothness = 0) ∧
      (add_field_constraints (LatticeField.init [3]) {}).eq.rhs =
        (LatticeField.init [3]).eq.rhs ++
          List.replicate (modelEqCount {} (LatticeField.init [3]).sizes) 0 :=
  ⟨rfl, add_field_constraints_rhs_count (LatticeField.init [3]) {} rfl⟩

/-- C9: up-sampling a field to its own size is the identity — with the source
sizes equal to the target sizes, `upscale_field` maps every lattice point to
itself and the interpolation reproduces each stored value exactly. -/
theorem upscale_field_self_identity (S : List Nat) (x : List ℚ)
    (h : x.length = numUnknowns S) : upscale_field x S S = x := by
  unfold upscale_field
  have step : ∀ q ∈ latticePoints S,
      interpValue x S
          (List.zipWith (fun (a : ℕ) (sl : ℕ × ℕ) =>
            (a : ℚ) * ((sl.1 : ℚ) - 1) / ((sl.2 : ℚ) - 1)) q (S.zip S)) =
        x.getD (flatIdx S q) 0 := by
    intro q hq
    obtain ⟨hlen, hb⟩ := latticePoints_bounds S q hq
    rw [upscale_coordMap_self S q hlen hb]
    exact cornerWeights_at_lattice_point S q (fun i => x.getD i 0) hlen hb
  rw [List.map_congr_left step]
  have comp : (latticePoints S).map (fun q => x.getD (flatIdx S q) 0) =
      ((latticePoints S).map (flatIdx S)).map (fun i => x.getD i 0) := by
    rw [List.map_map]
    rfl
  rw [comp, flatIdx_latticePoints, ← h, map_getD_range]

theorem latticePoints_length (S : List Nat) :
    (latticePoints S).length = numUnknowns S := by
  have h := congrArg List.length (flatIdx_latticePoints S)
  simpa using h

theorem upscale_field_length (x : List ℚ) (Ssmall S : List Nat) :
    (upscale_field x Ssmall S).length = numUnknowns S := by
  unfold upscale_field
  rw [List.length_map]
  exact latticePoints_length S

theorem guessOf_length (t : List Triplet) (rhs : List ℚ) (S : List Nat)
    (o : SolveOptions) : (guessOf t rhs S o).length = numUnknowns S := by
  simp only [guessOf]
  split
  · exact upscale_field_length _ _ _
  · exact List.length_replicate _ _

theorem foldl_set_length (row : α → Nat) (val : List ℚ → α → ℚ) :
    ∀ (l : List α) (x : List ℚ),
      (l.foldl (fun acc a => acc.set (row a) (val acc a)) x).length = x.length := by
  intro l
  induction l with
  | nil => intro x; rfl
  | cons a l ih => intro x; rw [List.foldl_cons, ih, List.length_set]

theorem refineTile_length (t : List Triplet) (rhs : List ℚ) (S : List Nat)
    (x : List ℚ) (tile : List (Nat × Nat)) :
    (refineTile t rhs S x tile).length = x.length := by
  simp only [refineTile]
  split
  · exact foldl_set_length (fun (cs : Nat × ℚ) => cs.1)
      (fun (_ : List ℚ) (cs : Nat × ℚ) => cs.2) _ x
  · rfl

theorem tiledOf_length (t : List Triplet) (rhs : List ℚ) (S : List Nat)
    (o : SolveOptions) : (tiledOf t rhs S o).length = numUnknowns S := by
  unfold tiledOf
  split
  · have hfold : ∀ (tiles : List (List (Nat × Nat))) (x : List ℚ),
        (tiles.foldl (refineTile t rhs S) x).length = x.length := by
      intro tiles
      induction tiles with
      | nil => intro x; rfl
      | cons tl tiles ih => intro x; rw [List.foldl_cons, ih, refineTile_length]
    rw [hfold]
    exact guessOf_length t rhs S o
  · exact guessOf_length t rhs S o

theorem pickBetter_length (t : List Triplet) (rhs x y : List ℚ) (n : Nat)
    (hx : x.length = n) (hy : y.length = n) : (pickBetter t rhs x y).length = n := by
  unfold pickBetter
  split
  · exact hx
  · exact hy

theorem startOf_length (t : List Triplet) (rhs : List ℚ) (S : List Nat)
    (o : SolveOptions) : (startOf t rhs S o).length = numUnknowns S :=
  pickBetter_length t rhs _ _ _ (tiledOf_length t rhs S o) (guessOf_length t rhs S o)

theorem matVec_length (t : List Triplet) (rows : Nat) (x : List ℚ) :
    (matVec t rows x).length = rows := by
  unfold matVec
  exact (foldl_set_length _ _ t _).trans (List.length_replicate _ _)

theorem matTVec_length (t : List Triplet) (cols : Nat) (v : List ℚ) :
    (matTVec t cols v).length = cols := by
  unfold matTVec
  exact (foldl_set_length _ _ t _).trans (List.length_replicate _ _)

theorem vAdd_length (a b : List ℚ) (n : Nat) (ha : a.length = n) (hb : b.length = n) :
    (vAdd a b).length = n := by
  unfold vAdd
  rw [List.length_zipWith, ha, hb, Nat.min_self]

theorem vSub_length (a b : List ℚ) (n : Nat) (ha : a.length = n) (hb : b.length = n) :
    (vSub a b).length = n := by
  unfold vSub
  rw [List.length_zipWith, ha, hb, Nat.min_self]

theorem vScale_length (c : ℚ) (a : List ℚ) : (vScale c a).length = a.length :=
  List.length_map _ _

theorem cgIter_length (mulM : List ℚ → List ℚ) (threshold : ℚ) (n : Nat)
    (hm : ∀ v, (mulM v).length = n) :
    ∀ (fuel : Nat) (x r p : List ℚ), x.length = n → r.length = n → p.length = n →
      (cgIter mulM threshold fuel x r p).length = n := by
  intro fuel
  induction fuel with
  | zero => intro x r p hx _ _; exact hx
  | succ fuel ih =>
      intro x r p hx hr hp
      show (if normSq r ≤ threshold then x else _).length = n
      split
      · exact hx
      · refine ih _ _ _ (vAdd_length _ _ _ hx ?_) (vSub_length _ _ _ hr ?_)
          (vAdd_length _ _ _ (vSub_length _ _ _ hr ?_) ?_) <;>
          simp [vScale_length, hp, hm]

theorem cgOf_length (t : List Triplet) (rhs : List ℚ) (S : List Nat)
    (o : SolveOptions) : (cgOf t rhs S o).length = numUnknowns S := by
  unfold cgOf
  split
  · refine cgIter_length _ _ _ (fun v => matTVec_length _ _ _) _ _ _ _
      (startOf_length t rhs S o) ?_ ?_ <;>
      exact vSub_length _ _ _ (matTVec_length _ _ _) (matTVec_length _ _ _)
  · exact startOf_length t rhs S o

/-- C1: for every system, lattice sizes with at least one unknown, and solve
options, the approximate lattice solver returns a vector of exactly
`N = Π sizes[d]` entries, and in particular never the empty vector — every
stage (coarse-guess with zero-field fallback, tiled refinement, CG polish,
best-estimate selection) preserves the length `N`. -/
theorem approx_solver_length (t : List Triplet) (rhs : List ℚ) (S : List Nat)
    (o : SolveOptions) (h : 0 < numUnknowns S) :
    (solve_sparse_linear_approximate_lattice t rhs S o).length = numUnknowns S ∧
      solve_sparse_linear_approximate_lattice t rhs S o ≠ [] := by
  have hlen : (solve_sparse_linear_approximate_lattice t rhs S o).length =
      numUnknowns S :=
    pickBetter_length t rhs _ _ _ (cgOf_length t rhs S o) (startOf_length t rhs S o)
  refine ⟨hlen, ?_⟩
  intro hnil
  rw [hnil] at hlen
  simp at hlen
  omega

/-- Witness for C1 on a one-triplet system over sizes `[2]`. -/
theorem approx_solver_length_witness :
    0 < numUnknowns [2] ∧
      ((solve_sparse_linear_approximate_lattice [⟨0, 0, 1⟩] [1] [2]
            ⟨2, false, 2, false, 0⟩).length = numUnknowns [2] ∧
        solve_sparse_linear_approximate_lattice [⟨0, 0, 1⟩] [1] [2]
            ⟨2, false, 2, false, 0⟩ ≠ []) :=
  ⟨by decide,
    approx_solver_length [⟨0, 0, 1⟩] [1] [2] ⟨2, false, 2, false, 0⟩ (by decide)⟩

theorem getD_set_nat (l : List Nat) (d v i : Nat) :
    (l.set d v).getD i 0 = if d = i ∧ d < l.length then v else l.getD i 0 := by
  rw [List.getD_eq_getElem?_getD, List.getElem?_set, List.getD_eq_getElem?_getD]
  by_cases h1 : d = i
  · subst h1
    by_cases h2 : d < l.length
    · simp [h2]
    · simp [h2, List.getElem?_eq_none (l := l) (by omega : l.length ≤ d)]
  · simp [h1]

theorem zipWith_mul_map_right (s : Nat) :
    ∀ (cs l : List Nat),
      (List.zipWith (fun c st => c * st) cs (l.map (fun x => x * s))).sum =
        s * (List.zipWith (fun c st => c * st) cs l).sum := by
  intro cs
  induction cs with
  | nil => intro l; simp
  | cons c cs ih =>
      intro l
      cases l with
      | nil => simp
      | cons st l =>
          simp only [List.map_cons, List.zipWith_cons_cons, List.sum_cons, ih]
          ring

theorem idxZip_stridesOf_cons (s : Nat) (rest : List Nat) (c : Nat) (cs : List Nat) :
    idxZip (stridesOf (s :: rest)) (c :: cs) = c + s * idxZip (stridesOf rest) cs := by
  show (List.zipWith (fun c st => c * st) (c :: cs)
      (1 :: (stridesOf rest).map (fun x => x * s))).sum = _
  rw [List.zipWith_cons_cons, List.sum_cons, zipWith_mul_map_right]
  rw [Nat.mul_one]
  rfl

theorem idxZip_lt (sizes : List Nat) :
    ∀ coords : List Nat, coords.length = sizes.length →
      (∀ i, coords.getD i 0 < sizes.getD i 1) →
      idxZip (stridesOf sizes) coords < numUnknowns sizes := by
  induction sizes with
  | nil =>
      intro coords hlen _
      have : coords = [] := List.eq_nil_of_length_eq_zero hlen
      subst this
      decide
  | cons s rest ih =>
      intro coords hlen hb
      cases coords with
      | nil => simp at hlen
      | cons c cs =>
          have hc : c < s := hb 0
          have hrest : idxZip (stridesOf rest) cs < numUnknowns rest :=
            ih cs (by simpa using hlen) (fun i => hb (i + 1))
          rw [idxZip_stridesOf_cons]
          have h1 : c + s * idxZip (stridesOf rest) cs <
              s * (idxZip (stridesOf rest) cs + 1) := by
            rw [Nat.mul_add, Nat.mul_one]
            omega
          have h2 : s * (idxZip (stridesOf rest) cs + 1) ≤ s * numUnknowns rest :=
            Nat.mul_le_mul_left s hrest
          have h3 : numUnknowns (s :: rest) = s * numUnknowns rest := by
            simp [numUnknowns]
          omega

theorem cornersList_length (n : Nat) :
    ∀ c ∈ cornersList n, c.length = n := by
  induction n with
  | zero => intro c hc; simp [cornersList] at hc; simp [hc]
  | succ n ih =>
      intro c hc
      simp only [cornersList, List.mem_flatMap] at hc
      obtain ⟨c0, hc0, hmem⟩ := hc
      have h0 := ih c0 hc0
      simp only [List.mem_cons, List.not_mem_nil, or_false] at hmem
      rcases hmem with h | h
      · subst h; simp [h0]
      · subst h; simp [h0]

theorem posInBounds_size_pos (sizes : List Nat) (pos : List ℚ)
    (h : posInBounds sizes pos) : ∀ s ∈ sizes, 1 ≤ s := by
  intro s hs
  obtain ⟨i, hi, rfl⟩ := List.mem_iff_getElem.mp hs
  have hip : i < pos.length := by rw [h.1]; exact hi
  have hzip : (pos[i], sizes[i]) ∈ pos.zip sizes := by
    have hlt : i < (pos.zip sizes).length := by
      rw [List.length_zip, h.1]
      simp [hi]
    have := @List.getElem_zip _ _ pos sizes i hlt
    rw [← this]
    exact List.getElem_mem hlt
  have hb := h.2 _ hzip
  have : (1 : ℚ) ≤ (sizes[i] : ℚ) := by
    have := hb.1
    have := hb.2
    linarith
  exact_mod_cast this

theorem cornerWeights_col_lt (sizes : List Nat) (hs : ∀ s ∈ sizes, 1 ≤ s) :
    ∀ (pos : List ℚ), ∀ iw ∈ cornerWeights sizes pos, iw.1 < numUnknowns sizes := by
  induction sizes with
  | nil =>
      intro pos iw hiw
      simp only [cornerWeights, List.mem_singleton] at hiw
      subst hiw
      decide
  | cons s rest ih =>
      intro pos iw hiw
      have hs1 : 1 ≤ s := hs s (by simp)
      simp only [cornerWeights, List.mem_flatMap] at hiw
      obtain ⟨iw0, hiw0, hmem⟩ := hiw
      simp only [List.mem_cons, List.not_mem_nil, or_false] at hmem
      have hrec : iw0.1 < numUnknowns rest :=
        ih (fun x hx => hs x (by simp [hx])) pos.tail iw0 hiw0
      have key : ∀ j, j ≤ s - 1 → j + s * iw0.1 < numUnknowns (s :: rest) := by
        intro j hj
        have h1 : j + s * iw0.1 < s * (iw0.1 + 1) := by
          rw [Nat.mul_add, Nat.mul_one]
          omega
        have h2 : s * (iw0.1 + 1) ≤ s * numUnknowns rest :=
          Nat.mul_le_mul_left s hrec
        have h3 : numUnknowns (s :: rest) = s * numUnknowns rest := by
          simp [numUnknowns]
        omega
      rcases hmem with h | h
      · subst h
        exact key _ (Nat.le_trans (Nat.min_le_right _ _) (Nat.le_refl _))
      · subst h
        exact key _ (Nat.min_le_right _ _)

theorem cornerCoords_length (sizes fiList : List Nat) (bits : List Bool)
    (hfi : fiList.length = sizes.length) (hbits : bits.length = sizes.length) :
    (cornerCoords sizes fiList bits).length = sizes.length := by
  unfold cornerCoords
  rw [List.length_zipWith, List.length_zip, hfi, hbits]
  simp

theorem cornerCoords_bound (sizes fiList : List Nat) (bits : List Bool)
    (hs : ∀ s ∈ sizes, 1 ≤ s)
    (hfi : fiList.length = sizes.length) (hbits : bits.length = sizes.length) :
    ∀ i, (cornerCoords sizes fiList bits).getD i 0 < sizes.getD i 1 := by
  intro i
  by_cases hi : i < sizes.length
  · have hlen : i < (cornerCoords sizes fiList bits).length := by
      rw [cornerCoords_length sizes fiList bits hfi hbits]
      exact hi
    rw [List.getD_eq_getElem?_getD, List.getElem?_eq_getElem hlen, Option.getD_some]
    have hzl : i < ((fiList.zip bits).zipWith
        (fun fb s => min (fb.1 + (if fb.2 then 1 else 0)) (s - 1)) sizes).length := hlen
    have hzb : i < (fiList.zip bits).length := by
      rw [List.length_zip, hfi, hbits]
      simp [hi]
    have hv : (cornerCoords sizes fiList bits)[i] =
        min ((fiList.zip bits)[i].1 + (if (fiList.zip bits)[i].2 then 1 else 0))
          (sizes[i] - 1) := by
      show ((fiList.zip bits).zipWith _ sizes)[i] = _
      rw [List.getElem_zipWith]
    rw [hv]
    have hs1 : 1 ≤ sizes[i] := hs _ (List.getElem_mem hi)
    have hgd : sizes.getD i 1 = sizes[i] := by
      rw [List.getD_eq_getElem?_getD, List.getElem?_eq_getElem hi]
      rfl
    rw [hgd]
    have := Nat.min_le_right
      ((fiList.zip bits)[i].1 + (if (fiList.zip bits)[i].2 then 1 else 0))
      (sizes[i] - 1)
    omega
  · rw [List.getD_eq_getElem?_getD, List.getElem?_eq_none, List.getD_eq_getElem?_getD,
      List.getElem?_eq_none]
    · decide
    · omega
    · rw [cornerCoords_length sizes fiList bits hfi hbits]
      omega

theorem zip_getElem_mem (l1 : List α) (l2 : List β) (i : Nat)
    (h1 : i < l1.length) (h2 : i < l2.length) : (l1[i], l2[i]) ∈ l1.zip l2 := by
  have hlt : i < (l1.zip l2).length := by
    rw [List.length_zip]
    simp [h1, h2]
  have hz := @List.getElem_zip _ _ l1 l2 i hlt
  rw [← hz]
  exact List.getElem_mem hlt

theorem latticePoints_getD (sizes : List Nat) :
    ∀ p ∈ latticePoints sizes,
      p.length = sizes.length ∧ ∀ i, p.getD i 0 < sizes.getD i 1 := by
  induction sizes with
  | nil =>
      intro p hp
      simp [latticePoints] at hp
      subst hp
      refine ⟨rfl, ?_⟩
      intro i
      simp [List.getD]
  | cons s rest ih =>
      intro p hp
      simp only [latticePoints, List.mem_flatMap, List.mem_map, List.mem_range] at hp
      obtain ⟨q, hq, i0, hi0, rfl⟩ := hp
      obtain ⟨hlen, hb⟩ := ih q hq
      refine ⟨by simp [hlen], ?_⟩
      intro i
      cases i with
      | zero => simpa using hi0
      | succ i => simpa using hb i

theorem distinctPairs_mem :
    ∀ (l : List α), ∀ pr ∈ distinctPairs l, pr.1 ∈ l ∧ pr.2 ∈ l := by
  intro l
  induction l with
  | nil => intro pr hpr; simp [distinctPairs] at hpr
  | cons a l ih =>
      intro pr hpr
      simp only [distinctPairs, List.mem_append, List.mem_map] at hpr
      rcases hpr with ⟨b, hb, rfl⟩ | hpr
      · exact ⟨by simp, by simp [hb]⟩
      · obtain ⟨h1, h2⟩ := ih pr hpr
        exact ⟨by simp [h1], by simp [h2]⟩

theorem floorCells_length (sizes : List Nat) (pos : List ℚ)
    (h : pos.length = sizes.length) : (floorCells sizes pos).length = sizes.length := by
  unfold floorCells
  rw [List.length_zipWith, h]
  simp

theorem intPoint_getD_bound (sizes : List Nat) (nn : List Int)
    (h : intPointInBounds sizes nn) :
    ∀ i, (nn.map Int.toNat).getD i 0 < sizes.getD i 1 := by
  intro i
  by_cases hi : i < sizes.length
  · have hni : i < nn.length := by rw [h.1]; exact hi
    have hmi : i < (nn.map Int.toNat).length := by simpa using hni
    rw [List.getD_eq_getElem?_getD, List.getElem?_eq_getElem hmi, Option.getD_some,
      List.getElem_map, List.getD_eq_getElem?_getD, List.getElem?_eq_getElem hi,
      Option.getD_some]
    have hz := h.2 _ (zip_getElem_mem nn sizes i hni hi)
    omega
  · have hne : (nn.map Int.toNat).length ≤ i := by
      rw [List.length_map, h.1]
      omega
    rw [List.getD_eq_getElem?_getD, List.getElem?_eq_none hne,
      List.getD_eq_getElem?_getD, List.getElem?_eq_none (by omega)]
    decide

theorem intPoint_len (sizes : List Nat) (nn : List Int)
    (h : intPointInBounds sizes nn) : (nn.map Int.toNat).length = sizes.length := by
  rw [List.length_map]
  exact h.1

theorem eqWF_add_equation {N : Nat} {eq : LinearEquation} (h : eqWF N eq)
    (w r : ℚ) (cs : List Coeff) (hcs : ∀ c ∈ cs, c.1 < N) :
    eqWF N (add_equation eq w r cs) := by
  unfold add_equation
  split
  · exact h
  · intro tr htr
    simp only [foldl_append_singleton, List.mem_append, List.mem_map] at htr
    constructor
    · rw [List.length_append]
      rcases htr with htr | ⟨c, _, rfl⟩
      · have := (h tr htr).1
        simp
        omega
      · simp
    · rcases htr with htr | ⟨c, hc, rfl⟩
      · exact (h tr htr).2
      · exact hcs c hc

theorem eqWF_appendSpecs {N : Nat} (specs : List EqSpec) :
    ∀ eq : LinearEquation, eqWF N eq →
      (∀ s ∈ specs, ∀ c ∈ s.coeffs, c.1 < N) → eqWF N (appendSpecs eq specs) := by
  induction specs with
  | nil => intro eq h _; exact h
  | cons s specs ih =>
      intro eq h hcs
      show eqWF N (appendSpecs (add_equation eq s.w s.r s.coeffs) specs)
      exact ih _ (eqWF_add_equation h s.w s.r s.coeffs (hcs s (by simp)))
        (fun t ht => hcs t (by simp [ht]))

theorem eqWF_foldl {N : Nat} (l : List α) (step : LinearEquation → α → LinearEquation)
    (hstep : ∀ (eq : LinearEquation) (a : α), a ∈ l → eqWF N eq → eqWF N (step eq a)) :
    ∀ eq : LinearEquation, eqWF N eq → eqWF N (l.foldl step eq) := by
  induction l with
  | nil => intro eq h; exact h
  | cons a l ih =>
      intro eq h
      rw [List.foldl_cons]
      exact ih (fun eq2 b hb h2 => hstep eq2 b (by simp [hb]) h2) _
        (hstep eq a (by simp) h)

theorem idx_set_lt (sizes coords : List Nat) (hlen : coords.length = sizes.length)
    (hb : ∀ i, coords.getD i 0 < sizes.getD i 1) (d v : Nat)
    (hv : v < sizes.getD d 1) :
    idxZip (stridesOf sizes) (coords.set d v) < numUnknowns sizes := by
  apply idxZip_lt
  · rw [List.length_set]
    exact hlen
  · intro i
    rw [getD_set_nat]
    split
    · next hcond =>
        rw [← hcond.1]
        exact hv
    · exact hb i

theorem idx_cornerCoords_lt (sizes fiList : List Nat) (bits : List Bool)
    (hs : ∀ s ∈ sizes, 1 ≤ s) (hfi : fiList.length = sizes.length)
    (hbits : bits.length = sizes.length) :
    idxZip (stridesOf sizes) (cornerCoords sizes fiList bits) < numUnknowns sizes :=
  idxZip_lt sizes _ (cornerCoords_length sizes fiList bits hfi hbits)
    (cornerCoords_bound sizes fiList bits hs hfi hbits)

theorem idx_nn_lt (sizes : List Nat) (nn : List Int) (h : intPointInBounds sizes nn) :
    idxZip (stridesOf sizes) (nn.map Int.toNat) < numUnknowns sizes :=
  idxZip_lt sizes _ (intPoint_len sizes nn h) (intPoint_getD_bound sizes nn h)

theorem cell_sizes_pos (sizes cell : List Nat)
    (_hlen : cell.length = (sizes.map (fun s => s - 1)).length)
    (hb : ∀ i, cell.getD i 0 < (sizes.map (fun s => s - 1)).getD i 1) :
    ∀ s ∈ sizes, 1 ≤ s := by
  intro s hsmem
  obtain ⟨i, hi, rfl⟩ := List.mem_iff_getElem.mp hsmem
  have hmi : i < (sizes.map (fun s => s - 1)).length := by simpa using hi
  have := hb i
  rw [List.getD_eq_getElem?_getD (sizes.map (fun s => s - 1)),
    List.getElem?_eq_getElem hmi, Option.getD_some, List.getElem_map] at this
  omega

theorem wf_add_value_constraint (f : LatticeField)
    (_hstr : f.strides = stridesOf f.sizes) (hwf : latticeWF f)
    (pos : List ℚ) (v w : ℚ) : latticeWF (add_value_constraint f pos v w).2 := by
  unfold add_value_constraint
  split
  · next hpos =>
      exact eqWF_add_equation hwf _ _ _
        (fun c hc => cornerWeights_col_lt f.sizes (posInBounds_size_pos _ _ hpos) pos c hc)
  · exact hwf

theorem wf_add_value_constraint_nn (f : LatticeField)
    (hstr : f.strides = stridesOf f.sizes) (hwf : latticeWF f)
    (pos g : List ℚ) (v w : ℚ) :
    latticeWF (add_value_constraint_nearest_neighbor f pos g v w).2 := by
  simp only [add_value_constraint_nearest_neighbor]
  split
  · next hnn =>
      refine eqWF_add_equation hwf _ _ _ ?_
      intro c hc
      simp only [List.mem_singleton] at hc
      subst hc
      show idxZip f.strides ((nearestPoint pos).map Int.toNat) < _
      rw [hstr]
      exact idx_nn_lt f.sizes (nearestPoint pos) hnn
  · exact hwf

theorem wf_add_gradient_constraint (f : LatticeField)
    (hstr : f.strides = stridesOf f.sizes) (hwf : latticeWF f)
    (pos g : List ℚ) (w : ℚ) (k : GradientKernel) :
    latticeWF (add_gradient_constraint f pos g w k).2 := by
  cases k with
  | kNearestNeighbor =>
      simp only [add_gradient_constraint]
      split
      · next hnn =>
          refine eqWF_foldl _ _ ?_ f.eq hwf
          intro eq d _ h
          split
          · next hguard =>
              refine eqWF_add_equation h _ _ _ ?_
              intro c hc
              simp only [List.mem_cons, List.not_mem_nil, or_false] at hc
              have hgetb := intPoint_getD_bound f.sizes (nearestPoint pos) hnn
              have hlen := intPoint_len f.sizes (nearestPoint pos) hnn
              rcases hc with rfl | rfl
              · show idxZip f.strides
                  (((nearestPoint pos).map Int.toNat).set d
                    (((nearestPoint pos).map Int.toNat).getD d 0 + 1)) < _
                rw [hstr]
                exact idx_set_lt f.sizes _ hlen hgetb d _ (by omega)
              · show idxZip f.strides ((nearestPoint pos).map Int.toNat) < _
                rw [hstr]
                exact idx_nn_lt f.sizes (nearestPoint pos) hnn
          · exact h
      · exact hwf
  | kCellEdges =>
      simp only [add_gradient_constraint]
      split
      · next hpos =>
          refine eqWF_foldl _ _ ?_ f.eq hwf
          intro eq d _ h
          refine eqWF_foldl _ _ ?_ eq h
          intro eq2 c hcmem h2
          refine eqWF_add_equation h2 _ _ _ ?_
          intro cf hcf
          simp only [List.mem_cons, List.not_mem_nil, or_false] at hcf
          have hs := posInBounds_size_pos f.sizes pos hpos
          have hfl : (floorCells f.sizes pos).length = f.sizes.length :=
            floorCells_length _ _ hpos.1
          have hcl : c.length = f.sizes.length :=
            cornersList_length _ c (List.mem_filter.mp hcmem).1
          rcases hcf with rfl | rfl
          · show idxZip f.strides
              (cornerCoords f.sizes (floorCells f.sizes pos) (c.set d true)) < _
            rw [hstr]
            exact idx_cornerCoords_lt f.sizes _ _ hs hfl (by rw [List.length_set]; exact hcl)
          · show idxZip f.strides
              (cornerCoords f.sizes (floorCells f.sizes pos) c) < _
            rw [hstr]
            exact idx_cornerCoords_lt f.sizes _ _ hs hfl hcl
      · exact hwf
  | kLinearInterpolation =>
      simp only [add_gradient_constraint]
      split
      · next hpos =>
          refine eqWF_foldl _ _ ?_ f.eq hwf
          intro eq d _ h
          refine eqWF_add_equation h _ _ _ ?_
          intro cf hcf
          simp only [List.mem_flatMap, List.mem_cons, List.not_mem_nil, or_false] at hcf
          obtain ⟨c, hcmem, hcf⟩ := hcf
          have hs := posInBounds_size_pos f.sizes pos hpos
          have hfl : (floorCells f.sizes pos).length = f.sizes.length :=
            floorCells_length _ _ hpos.1
          have hcl : c.length = f.sizes.length :=
            cornersList_length _ c (List.mem_filter.mp hcmem).1
          rcases hcf with rfl | rfl
          · show idxZip f.strides
              (cornerCoords f.sizes (floorCells f.sizes pos) (c.set d true)) < _
            rw [hstr]
            exact idx_cornerCoords_lt f.sizes _ _ hs hfl (by rw [List.length_set]; exact hcl)
          · show idxZip f.strides
              (cornerCoords f.sizes (floorCells f.sizes pos) c) < _
            rw [hstr]
            exact idx_cornerCoords_lt f.sizes _ _ hs hfl hcl
      · exact hwf

theorem wf_add_field_constraints (f : LatticeField)
    (hstr : f.strides = stridesOf f.sizes) (hwf : latticeWF f) (w : Weights) :
    latticeWF (add_field_constraints f w) := by
  have h1 : eqWF (numUnknowns f.sizes)
      ((latticePoints f.sizes).foldl
        (fun acc p => appendSpecs acc (pointModelSpecs w f.sizes f.strides p)) f.eq) := by
    refine eqWF_foldl _ _ ?_ f.eq hwf
    intro eq p hp h
    refine eqWF_appendSpecs _ _ h ?_
    intro s hsmem c hc
    obtain ⟨hplen, hpb⟩ := latticePoints_getD f.sizes p hp
    unfold pointModelSpecs at hsmem
    rw [List.mem_append] at hsmem
    rcases hsmem with hsmem | hsmem
    · split at hsmem
      · simp only [List.mem_singleton] at hsmem
        subst hsmem
        simp only [List.mem_singleton] at hc
        subst hc
        show idxZip f.strides p < _
        rw [hstr]
        exact idxZip_lt f.sizes p hplen hpb
      · simp at hsmem
    · simp only [List.mem_flatMap] at hsmem
      obtain ⟨k, _, hsmem⟩ := hsmem
      split at hsmem
      · simp only [List.mem_map] at hsmem
        obtain ⟨d, hd, rfl⟩ := hsmem
        unfold axesFitting at hd
        rw [List.mem_filter] at hd
        unfold stencilCoeffs at hc
        simp only [List.mem_map, List.mem_range] at hc
        obtain ⟨j, hj, rfl⟩ := hc
        show idxZip f.strides (p.set d (p.getD d 0 + j)) < _
        rw [hstr]
        refine idx_set_lt f.sizes p hplen hpb d _ ?_
        have hfit := of_decide_eq_true hd.2
        have := hpb d
        omega
      · simp at hsmem
  unfold add_field_constraints
  split
  · next hgs =>
      refine eqWF_foldl _ _ ?_ _ h1
      intro eq cell hcell h
      refine eqWF_appendSpecs _ _ h ?_
      intro s hsmem c hc
      obtain ⟨hclen, hcb⟩ := latticePoints_getD (f.sizes.map (fun s => s - 1)) cell hcell
      have hs1 : ∀ s ∈ f.sizes, 1 ≤ s := cell_sizes_pos f.sizes cell hclen hcb
      have hcell_len : cell.length = f.sizes.length := by
        rw [hclen, List.length_map]
      unfold cellSmoothnessSpecs at hsmem
      simp only [List.mem_flatMap, List.mem_map] at hsmem
      obtain ⟨d, _, cc, hcc, rfl⟩ := hsmem
      obtain ⟨hcc1, hcc2⟩ := distinctPairs_mem _ cc hcc
      have hl1 : cc.1.length = f.sizes.length :=
        cornersList_length _ cc.1 (List.mem_filter.mp hcc1).1
      have hl2 : cc.2.length = f.sizes.length :=
        cornersList_length _ cc.2 (List.mem_filter.mp hcc2).1
      simp only [List.mem_cons, List.not_mem_nil, or_false] at hc
      rcases hc with rfl | rfl | rfl | rfl
      · show idxZip f.strides (cornerCoords f.sizes cell (cc.1.set d true)) < _
        rw [hstr]
        exact idx_cornerCoords_lt f.sizes _ _ hs1 hcell_len
          (by rw [List.length_set]; exact hl1)
      · show idxZip f.strides (cornerCoords f.sizes cell cc.1) < _
        rw [hstr]
        exact idx_cornerCoords_lt f.sizes _ _ hs1 hcell_len hl1
      · show idxZip f.strides (cornerCoords f.sizes cell (cc.2.set d true)) < _
        rw [hstr]
        exact idx_cornerCoords_lt f.sizes _ _ hs1 hcell_len
          (by rw [List.length_set]; exact hl2)
      · show idxZip f.strides (cornerCoords f.sizes cell cc.2) < _
        rw [hstr]
        exact idx_cornerCoords_lt f.sizes _ _ hs1 hcell_len hl2
  · exact h1

theorem avc_dims (f : LatticeField) (pos : List ℚ) (v w : ℚ) :
    (add_value_constraint f pos v w).2.sizes = f.sizes ∧
      (add_value_constraint f pos v w).2.strides = f.strides := by
  unfold add_value_constraint
  split <;> exact ⟨rfl, rfl⟩

theorem avcnn_dims (f : LatticeField) (pos g : List ℚ) (v w : ℚ) :
    (add_value_constraint_nearest_neighbor f pos g v w).2.sizes = f.sizes ∧
      (add_value_constraint_nearest_neighbor f pos g v w).2.strides = f.strides := by
  simp only [add_value_constraint_nearest_neighbor]
  split <;> exact ⟨rfl, rfl⟩

theorem agc_dims (f : LatticeField) (pos g : List ℚ) (w : ℚ) (k : GradientKernel) :
    (add_gradient_constraint f pos g w k).2.sizes = f.sizes ∧
      (add_gradient_constraint f pos g w k).2.strides = f.strides := by
  cases k <;> simp only [add_gradient_constraint] <;> split <;> exact ⟨rfl, rfl⟩

theorem afc_dims (f : LatticeField) (w : Weights) :
    (add_field_constraints f w).sizes = f.sizes ∧
      (add_field_constraints f w).strides = f.strides := by
  unfold add_field_constraints
  split <;> exact ⟨rfl, rfl⟩

theorem wf_add_points :
    ∀ (ps : List (List ℚ)) (f : LatticeField) (ns : Option (List (List ℚ)))
      (pws : Option (List ℚ)) (vw : ℚ) (vk : ValueKernel) (gw : ℚ)
      (gk : GradientKernel),
      f.strides = stridesOf f.sizes → latticeWF f →
      latticeWF (add_points f vw vk gw gk ps ns pws) ∧
        (add_points f vw vk gw gk ps ns pws).sizes = f.sizes ∧
        (add_points f vw vk gw gk ps ns pws).strides = f.strides := by
  intro ps
  induction ps with
  | nil =>
      intro f ns pws vw vk gw gk _ hwf
      exact ⟨hwf, rfl, rfl⟩
  | cons p ps ih =>
      intro f ns pws vw vk gw gk hstr hwf
      set w := match pws with
        | some l => l.headD 1
        | none => (1 : ℚ) with hw
      set f1 := match vk, ns with
        | ValueKernel.kNearestNeighbor, some nl =>
            (add_value_constraint_nearest_neighbor f p (nl.headD []) 0 (vw * w)).2
        | _, _ => (add_value_constraint f p 0 (vw * w)).2 with hf1
      have hf1facts : latticeWF f1 ∧ f1.sizes = f.sizes ∧ f1.strides = f.strides := by
        rw [hf1]
        cases vk with
        | kNearestNeighbor =>
            cases ns with
            | some nl =>
                exact ⟨wf_add_value_constraint_nn f hstr hwf _ _ _ _,
                  (avcnn_dims f _ _ _ _).1, (avcnn_dims f _ _ _ _).2⟩
            | none =>
                exact ⟨wf_add_value_constraint f hstr hwf _ _ _,
                  (avc_dims f _ _ _).1, (avc_dims f _ _ _).2⟩
        | kLinearInterpolation =>
            cases ns with
            | some nl =>
                exact ⟨wf_add_value_constraint f hstr hwf _ _ _,
                  (avc_dims f _ _ _).1, (avc_dims f _ _ _).2⟩
            | none =>
                exact ⟨wf_add_value_constraint f hstr hwf _ _ _,
                  (avc_dims f _ _ _).1, (avc_dims f _ _ _).2⟩
      obtain ⟨hwf1, hsz1, hst1⟩ := hf1facts
      have hstr1 : f1.strides = stridesOf f1.sizes := by rw [hst1, hsz1]; exact hstr
      set f2 := match ns with
        | some nl => (add_gradient_constraint f1 p (nl.headD []) (gw * w) gk).2
        | none => f1 with hf2
      have hf2facts : latticeWF f2 ∧ f2.sizes = f1.sizes ∧ f2.strides = f1.strides := by
        rw [hf2]
        cases ns with
        | some nl =>
            exact ⟨wf_add_gradient_constraint f1 hstr1 hwf1 _ _ _ _,
              (agc_dims f1 _ _ _ _).1, (agc_dims f1 _ _ _ _).2⟩
        | none => exact ⟨hwf1, rfl, rfl⟩
      obtain ⟨hwf2, hsz2, hst2⟩ := hf2facts
      have hstr2 : f2.strides = stridesOf f2.sizes := by rw [hst2, hsz2]; exact hstr1
      have hrec := ih f2 (ns.map List.tail) (pws.map List.tail) vw vk gw gk hstr2 hwf2
      have hgoal : add_points f vw vk gw gk (p :: ps) ns pws =
          add_points f2 vw vk gw gk ps (ns.map List.tail) (pws.map List.tail) := by
        rw [hf2, hf1, hw]
        rfl
      rw [hgoal]
      exact ⟨hrec.1, by rw [hrec.2.1, hsz2, hsz1], by rw [hrec.2.2, hst2, hst1]⟩

theorem applyOp_inv (f : LatticeField) (op : Op)
    (hstr : f.strides = stridesOf f.sizes) (hwf : latticeWF f) :
    latticeWF (applyOp f op) ∧ (applyOp f op).sizes = f.sizes ∧
      (applyOp f op).strides = f.strides := by
  cases op with
  | fieldConstraints w =>
      exact ⟨wf_add_field_constraints f hstr hwf w, (afc_dims f w).1, (afc_dims f w).2⟩
  | valueConstraint pos v w =>
      exact ⟨wf_add_value_constraint f hstr hwf pos v w,
        (avc_dims f pos v w).1, (avc_dims f pos v w).2⟩
  | valueConstraintNN pos g v w =>
      exact ⟨wf_add_value_constraint_nn f hstr hwf pos g v w,
        (avcnn_dims f pos g v w).1, (avcnn_dims f pos g v w).2⟩
  | gradientConstraint pos g w k =>
      exact ⟨wf_add_gradient_constraint f hstr hwf pos g w k,
        (agc_dims f pos g w k).1, (agc_dims f pos g w k).2⟩
  | points vw vk gw gk ps ns pws =>
      have h := wf_add_points ps f ns pws vw vk gw gk hstr hwf
      exact ⟨h.1, h.2.1, h.2.2⟩

/-- C8: after any sequence of constraint-adding operations
(`add_field_constraints`, `add_value_constraint`,
`add_value_constraint_nearest_neighbor`, `add_gradient_constraint`,
`add_points`) on a freshly constructed `LatticeField`, every stored triplet
has a row index strictly below the number of rhs entries and a column index
strictly below `N = Π sizes[d]`. -/
theorem constraint_assembly_invariant (sizes : List Nat) (ops : List Op) :
    latticeWF (applyOps (LatticeField.init sizes) ops) := by
  suffices h : ∀ (ops : List Op) (f : LatticeField),
      f.strides = stridesOf f.sizes → latticeWF f →
      latticeWF (applyOps f ops) ∧
        (applyOps f ops).strides = stridesOf (applyOps f ops).sizes by
    refine (h ops (LatticeField.init sizes) rfl ?_).1
    intro tr htr
    simp [LatticeField.init] at htr
  intro ops
  induction ops with
  | nil => intro f h1 h2; exact ⟨h2, h1⟩
  | cons op ops ih =>
      intro f h1 h2
      obtain ⟨hwf2, hsz, hst⟩ := applyOp_inv f op h1 h2
      exact ih (applyOp f op) (by rw [hst, hsz]; exact h1) hwf2

/-- Witness for C9 on the field `[3, 5]` of sizes `[2]`. -/
theorem upscale_field_self_identity_witness :
    ([(3 : ℚ), 5].length = numUnknowns [2]) ∧
      upscale_field [(3 : ℚ), 5] [2] [2] = [(3 : ℚ), 5] :=
  ⟨by decide, upscale_field_self_identity [2] [(3 : ℚ), 5] (by decide)⟩

end FieldInterp
